import Mathlib

/-!
# Verification of `meu_compilador.py`

Shallow embedding of the compiler front-end `meu_compilador.py`:

* `afd_identificador` — the hand-rolled identifier acceptor;
* `tokenize` — the general tokenizer driven by the ordered regex
  alternation `TOKEN_SPEC` (FLOAT, INT, ID, OP, LPAREN, RPAREN, SEMI,
  COMMA, SKIP, UNKNOWN) with keyword reclassification;
* `ExprLexer` / `exprScan` — the parser-scoped lexer built from
  `ExprLexer.TOKEN_RE`;
* `parse_expression` — the recursive-descent parser (grammar
  `E -> T {(+|-) T}`, `T -> F {(*|/) F}`, `F -> NUMBER | ID | ( E )`).

Strings are modelled as `List Char`; Python's `re` scanning is modelled
character-by-character following the alternation order and greediness of
the compiled patterns.  Exceptions (`SyntaxError`) are modelled with
`Except String`.  Recursions that are loops in Python carry a `Nat` fuel
argument purely so that Lean accepts them structurally; the fuel supplied
by the top-level entry points is always sufficient.
-/

namespace MeuCompilador

/-- ASCII letter, the class `[A-Za-z]` used by the regex rules. -/
def isAsciiLetter (c : Char) : Bool :=
  (65 ≤ c.toNat && c.toNat ≤ 90) || (97 ≤ c.toNat && c.toNat ≤ 122)

/-- ASCII digit, the class `\d` of the regex rules (Python's `\d` also
matches some non-ASCII digits; no claim exercises those, so the model
keeps the ASCII core). -/
def isAsciiDigit (c : Char) : Bool :=
  48 ≤ c.toNat && c.toNat ≤ 57

/-- First-character class of the `ID` rule: `[A-Za-z_]`. -/
def isIdStart (c : Char) : Bool := isAsciiLetter c || c == '_'

/-- Continuation class of the `ID` rule: `[A-Za-z0-9_]`. -/
def isIdCont (c : Char) : Bool := isAsciiLetter c || isAsciiDigit c || c == '_'

/-- Python's `str.isalpha`, modelled on the Latin-1 range: ASCII letters,
`ª` (U+00AA), `µ` (U+00B5), `º` (U+00BA) and the letters U+00C0–U+00FF
(everything in that block except `×` U+00D7 and `÷` U+00F7).  Letters
above U+00FF are not modelled; no claim depends on them. -/
def pyIsAlpha (c : Char) : Bool :=
  isAsciiLetter c || c.toNat == 0xAA || c.toNat == 0xB5 || c.toNat == 0xBA ||
    (0xC0 ≤ c.toNat && c.toNat ≤ 0xFF && !(c.toNat == 0xD7) && !(c.toNat == 0xF7))

/-- Python's `str.isalnum` on the Latin-1 range: alphabetic characters,
ASCII digits, and the Latin-1 numeric characters `²³¹¼½¾`. -/
def pyIsAlnum (c : Char) : Bool :=
  pyIsAlpha c || isAsciiDigit c || c.toNat == 0xB2 || c.toNat == 0xB3 ||
    c.toNat == 0xB9 || c.toNat == 0xBC || c.toNat == 0xBD || c.toNat == 0xBE

/-- `afd_identificador` (lines 66–79): manual scan accepting identifiers.
Rejects the empty string; the first character must satisfy
`isalpha` or be `_`; each later character must satisfy `isalnum` or
be `_`, rejecting at the first violation. -/
def afd_identificador (s : List Char) : Bool :=
  match s with
  | [] => false
  | first :: rest =>
    if !(pyIsAlpha first || first == '_') then false
    else rest.all fun ch => pyIsAlnum ch || ch == '_'

/-- The `ID` rule of `TOKEN_SPEC`, `[A-Za-z_][A-Za-z0-9_]*`, as a whole-string
matcher (the pattern the spec quotes for identifiers). -/
def matchesIdPattern (s : List Char) : Bool :=
  match s with
  | [] => false
  | c :: cs => isIdStart c && cs.all isIdCont

/-! ## The general tokenizer -/

/-- Token kinds of the general tokenizer.  `SKIP` and `UNKNOWN` occur only
inside the scanner (`SKIP` matches are dropped, `UNKNOWN` matches are
re-labelled `ERROR`); `KEYWORD` only in its output. -/
inductive TokKind where
  | FLOAT | INT | ID | KEYWORD | OP | LPAREN | RPAREN | SEMI | COMMA
  | SKIP | UNKNOWN | ERROR
deriving DecidableEq

/-- A token `(tipo, valor, posição)` of `tokenize`. -/
structure Tok where
  kind : TokKind
  text : List Char
  pos : Nat
deriving DecidableEq

/-- The reserved-word set `KEYWORDS` (line 44). -/
def KEYWORDS : List (List Char) :=
  ["if".data, "else".data, "while".data, "return".data, "int".data,
    "float".data, "for".data, "break".data, "continue".data]

/-- The `SKIP` rule's class `[ \t\r\n]`. -/
def isSkipChar (c : Char) : Bool :=
  c == ' ' || c == '\t' || c == '\r' || c == '\n'

/-- Match of the `FLOAT`/`INT` alternatives `\d+\.\d+` / `\d+` at the head
of `l` (head of `l` is a digit): greedy digits, then a float if a dot with
at least one digit follows, else an integer.  Returns
(kind, matched characters, rest). -/
def matchNumber (l : List Char) : TokKind × List Char × List Char :=
  match l.dropWhile isAsciiDigit with
  | '.' :: r2 =>
    if r2.takeWhile isAsciiDigit = [] then (.INT, l.takeWhile isAsciiDigit, '.' :: r2)
    else (.FLOAT, l.takeWhile isAsciiDigit ++ '.' :: r2.takeWhile isAsciiDigit,
      r2.dropWhile isAsciiDigit)
  | _ => (.INT, l.takeWhile isAsciiDigit, l.dropWhile isAsciiDigit)

/-- One step of `MASTER.finditer`: the match of the alternation
`FLOAT|INT|ID|OP|LPAREN|RPAREN|SEMI|COMMA|SKIP|UNKNOWN` at position
`c :: cs`.  The alternatives are tried in `TOKEN_SPEC` order; dispatching
on the class of `c` is faithful because the alternatives that can fire at
a given first character are totally ordered by that class.  Returns
(kind, matched characters, rest of the input). -/
def matchAt (c : Char) (cs : List Char) : TokKind × List Char × List Char :=
  if isAsciiDigit c then matchNumber (c :: cs)
  else if isIdStart c then
    (.ID, (c :: cs).takeWhile isIdCont, (c :: cs).dropWhile isIdCont)
  else if (c == '=' || c == '!' || c == '<' || c == '>') && cs.head? == some '=' then
    (.OP, [c, '='], cs.tail)
  else if c == '+' || c == '-' || c == '*' || c == '/' || c == '=' then (.OP, [c], cs)
  else if c == '(' then (.LPAREN, [c], cs)
  else if c == ')' then (.RPAREN, [c], cs)
  else if c == ';' then (.SEMI, [c], cs)
  else if c == ',' then (.COMMA, [c], cs)
  else if isSkipChar c then
    (.SKIP, (c :: cs).takeWhile isSkipChar, (c :: cs).dropWhile isSkipChar)
  else (.UNKNOWN, [c], cs)

/-- Characters that can occur inside a match of some `TOKEN_SPEC` rule
other than the `UNKNOWN` fallback: digits and `.` (FLOAT/INT), identifier
characters, the operator and punctuation characters, and whitespace.  A
character outside this set is matched by no classification rule, wherever
it occurs. -/
def canEverMatch (c : Char) : Bool :=
  isAsciiDigit c || isIdStart c || c == '=' || c == '!' || c == '<' || c == '>' ||
    c == '+' || c == '-' || c == '*' || c == '/' || c == '(' || c == ')' ||
    c == ';' || c == ',' || isSkipChar c || c == '.'

/-- The loop of `tokenize` (lines 50–61): scan match by match, dropping
`SKIP` matches, reclassifying reserved-word `ID`s as `KEYWORD` and
`UNKNOWN` matches as `ERROR`.  `fuel` only bounds the recursion; every
match consumes at least one character, so `fuel = length` (supplied by
`tokenize`) never runs out. -/
def tokenizeAux : Nat → List Char → Nat → List Tok
  | 0, _, _ => []
  | _ + 1, [], _ => []
  | fuel + 1, c :: cs, pos =>
    match matchAt c cs with
    | (k, m, r) =>
      let rest := tokenizeAux fuel r (pos + m.length)
      if k = .SKIP then rest
      else if k = .ID ∧ m ∈ KEYWORDS then ⟨.KEYWORD, m, pos⟩ :: rest
      else if k = .UNKNOWN then ⟨.ERROR, m, pos⟩ :: rest
      else ⟨k, m, pos⟩ :: rest

/-- `tokenize` (lines 47–62). -/
def tokenize (src : List Char) : List Tok :=
  tokenizeAux src.length src 0

/-! ## The expression lexer -/

/-- A token of `ExprLexer`: a pair (kind, text), where the kind is
`"NUMBER"`, `"ID"`, one of `"+"`, `"-"`, `"*"`, `"/"`, `"("`, `")"`
(the operator character itself), `"ERROR"`, or the `"EOF"` sentinel. -/
abbrev ExprTok := String × String

/-- Python's `\s` (ASCII part: space, `\t`, `\n`, `\r`, `\x0b`, `\x0c`;
non-ASCII whitespace is not modelled, no claim depends on it). -/
def isPyWs (c : Char) : Bool :=
  c == ' ' || c == '\t' || c == '\n' || c == '\r' || c == '\x0b' || c == '\x0c'

/-- The single-character fallback of `ExprLexer.__init__` (lines 123–128):
one of `+-*/()` becomes an operator token `(other, other)`, anything else
an `("ERROR", other)` token. -/
def exprSingleTok (c : Char) : ExprTok :=
  if c == '+' || c == '-' || c == '*' || c == '/' || c == '(' || c == ')' then
    (String.singleton c, String.singleton c)
  else ("ERROR", String.singleton c)

/-- The `finditer` loop of `ExprLexer.__init__` over
`TOKEN_RE = \s*(?:(\d+\.\d+|\d+)|([A-Za-z_][A-Za-z0-9_]*)|(.))`.
Each match skips a whitespace run and then takes a number, an identifier,
or exactly one character.  When the input ends in whitespace, the greedy
`\s*` backtracks so that `.` matches the last character of the trailing
run that is not `'\n'` (if any) — that character becomes a final
single-character token — and the newlines after it match nothing. -/
def exprScanAux : Nat → List Char → List ExprTok
  | 0, _ => []
  | fuel + 1, l =>
    match l.dropWhile isPyWs with
    | [] =>
      match l.reverse.dropWhile (fun c => c == '\n') with
      | [] => []
      | c :: _ => [exprSingleTok c]
    | c :: cs =>
      if isAsciiDigit c then
        let ds := (c :: cs).takeWhile isAsciiDigit
        let r1 := (c :: cs).dropWhile isAsciiDigit
        match r1 with
        | '.' :: r2 =>
          let ds2 := r2.takeWhile isAsciiDigit
          if ds2 = [] then ("NUMBER", String.mk ds) :: exprScanAux fuel r1
          else
            ("NUMBER", String.mk (ds ++ '.' :: ds2)) ::
              exprScanAux fuel (r2.dropWhile isAsciiDigit)
        | _ => ("NUMBER", String.mk ds) :: exprScanAux fuel r1
      else if isIdStart c then
        ("ID", String.mk ((c :: cs).takeWhile isIdCont)) ::
          exprScanAux fuel ((c :: cs).dropWhile isIdCont)
      else
        exprSingleTok c :: exprScanAux fuel cs

/-- The token list built by `ExprLexer.__init__` (lines 111–129). -/
def exprScan (text : List Char) : List ExprTok :=
  exprScanAux text.length text

/-- `ExprLexer` after construction: its token list and cursor `pos`. -/
structure ExprLexer where
  tokens : List ExprTok
  pos : Nat
deriving DecidableEq

/-- `ExprLexer.peek` (lines 131–132): the token at the cursor, or the
`("EOF", "")` sentinel past the end. -/
def ExprLexer.peek (lex : ExprLexer) : ExprTok :=
  lex.tokens.getD lex.pos ("EOF", "")

/-- `ExprLexer.next` (lines 134–137): returns `peek` and the lexer with
the cursor advanced by one. -/
def ExprLexer.next (lex : ExprLexer) : ExprTok × ExprLexer :=
  (lex.peek, ⟨lex.tokens, lex.pos + 1⟩)

/-- The lexer state after `k` consecutive calls of `next`. -/
def ExprLexer.nextIter (lex : ExprLexer) : Nat → ExprLexer
  | 0 => lex
  | k + 1 => ((lex.nextIter k).next).2

/-! ## The parser -/

/-- AST nodes (`Number`, `Identifier`, `BinOp`, lines 86–104).  Numeric
values and names are kept as source text, operators as the token kind
(the operator character). -/
inductive AST where
  | Number (value : String)
  | Identifier (name : String)
  | BinOp (op : String) (left : AST) (right : AST)
deriving DecidableEq

/-- Control point of the recursive-descent parser: the nested functions
`F`, `T`, `E` of `parse_expression` and the states of the two
operator-folding `while` loops (which carry the node built so far). -/
inductive Mode where
  | Fm | Tm | Em
  | TLm (node : AST)
  | ELm (node : AST)

/-- The body of `parse_expression`'s nested functions (lines 147–178),
as one fuel-indexed step function:

* `.Fm` is `F`: a `NUMBER` or `ID` token yields a leaf; `"("` parses an
  inner `E` and requires `")"`; anything else raises
  `Token inesperado em F`;
* `.Tm` is `T`: parse an `F`, then fold `*`/`/` in the `.TLm` loop;
* `.Em` is `E`: parse a `T`, then fold `+`/`-` in the `.ELm` loop.

Errors are `Except.error`, modelling `raise SyntaxError`.  The fuel only
bounds nesting for Lean; `parse_expression` supplies enough for any
input. -/
def run : Nat → Mode → ExprLexer → Except String (AST × ExprLexer)
  | 0, _, _ => .error "fuel esgotado"
  | fuel + 1, .Fm, lex =>
    if (lex.peek).1 = "NUMBER" then .ok (.Number (lex.peek).2, (lex.next).2)
    else if (lex.peek).1 = "ID" then .ok (.Identifier (lex.peek).2, (lex.next).2)
    else if (lex.peek).1 = "(" then
      match run fuel .Em (lex.next).2 with
      | .ok (node, lex2) =>
        if (lex2.peek).1 = ")" then .ok (node, (lex2.next).2)
        else .error "Parêntese de fechamento esperado"
      | .error e => .error e
    else .error ("Token inesperado em F: (" ++ (lex.peek).1 ++ ", " ++ (lex.peek).2 ++ ")")
  | fuel + 1, .Tm, lex =>
    match run fuel .Fm lex with
    | .ok (node, lex1) => run fuel (.TLm node) lex1
    | .error e => .error e
  | fuel + 1, .TLm node, lex =>
    if (lex.peek).1 = "*" ∨ (lex.peek).1 = "/" then
      match run fuel .Fm (lex.next).2 with
      | .ok (right, lex2) => run fuel (.TLm (.BinOp (lex.peek).1 node right)) lex2
      | .error e => .error e
    else .ok (node, lex)
  | fuel + 1, .Em, lex =>
    match run fuel .Tm lex with
    | .ok (node, lex1) => run fuel (.ELm node) lex1
    | .error e => .error e
  | fuel + 1, .ELm node, lex =>
    if (lex.peek).1 = "+" ∨ (lex.peek).1 = "-" then
      match run fuel .Tm (lex.next).2 with
      | .ok (right, lex2) => run fuel (.ELm (.BinOp (lex.peek).1 node right)) lex2
      | .error e => .error e
    else .ok (node, lex)

/-- Fuel sufficient for `run` on a token list of the given length. -/
def parseFuel (n : Nat) : Nat := 4 * n + 8

/-- `parse_expression` (lines 144–183): build the `ExprLexer`, parse an
`E`, and reject trailing input (`peek` not at the `EOF` sentinel). -/
def parse_expression (text : List Char) : Except String AST :=
  match run (parseFuel (exprScan text).length) .Em ⟨exprScan text, 0⟩ with
  | .ok (ast, lex2) =>
    if (lex2.peek).1 = "EOF" then .ok ast
    else .error "Entrada extra após expressão"
  | .error e => .error e

/-! ## Lemmas about the tokenizer's matcher -/

theorem isIdStart_isIdCont (c : Char) (h : isIdStart c = true) : isIdCont c = true := by
  simp only [isIdStart, Bool.or_eq_true] at h
  simp only [isIdCont, Bool.or_eq_true]
  tauto

theorem isIdCont_canEverMatch (c : Char) (h : isIdCont c = true) :
    canEverMatch c = true := by
  simp only [isIdCont, Bool.or_eq_true] at h
  rcases h with (h | h) | h
  · simp [canEverMatch, isIdStart, h]
  · simp [canEverMatch, h]
  · simp [canEverMatch, isIdStart, h]

theorem matchNumber_append (l : List Char) :
    (matchNumber l).2.1 ++ (matchNumber l).2.2 = l := by
  unfold matchNumber
  split
  next r2 heq =>
    split
    next =>
      rw [← heq]
      exact List.takeWhile_append_dropWhile isAsciiDigit l
    next =>
      have h3 := List.takeWhile_append_dropWhile isAsciiDigit r2
      calc (l.takeWhile isAsciiDigit ++ '.' :: r2.takeWhile isAsciiDigit) ++
            r2.dropWhile isAsciiDigit
          = l.takeWhile isAsciiDigit ++
              '.' :: (r2.takeWhile isAsciiDigit ++ r2.dropWhile isAsciiDigit) := by
            simp
        _ = l.takeWhile isAsciiDigit ++ '.' :: r2 := by rw [h3]
        _ = l.takeWhile isAsciiDigit ++ l.dropWhile isAsciiDigit := by rw [heq]
        _ = l := List.takeWhile_append_dropWhile isAsciiDigit l
  next => exact List.takeWhile_append_dropWhile isAsciiDigit l

theorem matchNumber_shape (c : Char) (cs : List Char) (h : isAsciiDigit c = true) :
    ∃ t, (matchNumber (c :: cs)).2.1 = c :: t := by
  have hTake : (c :: cs).takeWhile isAsciiDigit = c :: cs.takeWhile isAsciiDigit := by
    simp [List.takeWhile_cons, h]
  unfold matchNumber
  split
  next r2 heq =>
    split
    next => exact ⟨cs.takeWhile isAsciiDigit, hTake⟩
    next =>
      exact ⟨cs.takeWhile isAsciiDigit ++ '.' :: r2.takeWhile isAsciiDigit,
        by rw [hTake]; simp⟩
  next => exact ⟨cs.takeWhile isAsciiDigit, hTake⟩

theorem matchNumber_kind (l : List Char) :
    (matchNumber l).1 = .INT ∨ (matchNumber l).1 = .FLOAT := by
  unfold matchNumber
  split
  · split
    · exact .inl rfl
    · exact .inr rfl
  · exact .inl rfl

theorem matchNumber_chars (l : List Char) :
    ∀ ch ∈ (matchNumber l).2.1, isAsciiDigit ch = true ∨ ch = '.' := by
  unfold matchNumber
  split
  next r2 heq =>
    split
    next =>
      intro ch hch
      exact .inl (List.mem_takeWhile_imp hch)
    next =>
      intro ch hch
      rcases List.mem_append.mp hch with h | h
      · exact .inl (List.mem_takeWhile_imp h)
      · rcases List.mem_cons.mp h with h | h
        · exact .inr h
        · exact .inl (List.mem_takeWhile_imp h)
  next =>
    intro ch hch
    exact .inl (List.mem_takeWhile_imp hch)

theorem matchAt_append (c : Char) (cs : List Char) :
    (matchAt c cs).2.1 ++ (matchAt c cs).2.2 = c :: cs := by
  unfold matchAt
  split_ifs with h1 h2 h3 h4 h5 h6 h7 h8 h9
  · exact matchNumber_append (c :: cs)
  · exact List.takeWhile_append_dropWhile isIdCont (c :: cs)
  · have hh : cs.head? = some '=' := by
      have := (Bool.and_eq_true _ _).mp h3 |>.2
      simpa using this
    cases cs with
    | nil => simp at hh
    | cons d cs2 =>
      have hd : d = '=' := by simpa using hh
      subst hd
      rfl
  · rfl
  · rfl
  · rfl
  · rfl
  · rfl
  · exact List.takeWhile_append_dropWhile isSkipChar (c :: cs)
  · rfl

theorem matchAt_shape (c : Char) (cs : List Char) :
    ∃ t, (matchAt c cs).2.1 = c :: t := by
  unfold matchAt
  split_ifs with h1 h2 h3 h4 h5 h6 h7 h8 h9
  · exact matchNumber_shape c cs h1
  · exact ⟨cs.takeWhile isIdCont, by simp [List.takeWhile_cons, isIdStart_isIdCont c h2]⟩
  · exact ⟨['='], rfl⟩
  · exact ⟨[], rfl⟩
  · exact ⟨[], rfl⟩
  · exact ⟨[], rfl⟩
  · exact ⟨[], rfl⟩
  · exact ⟨[], rfl⟩
  · exact ⟨cs.takeWhile isSkipChar, by simp [List.takeWhile_cons, h9]⟩
  · exact ⟨[], rfl⟩

theorem matchAt_kind_not (c : Char) (cs : List Char) :
    (matchAt c cs).1 ≠ .KEYWORD ∧ (matchAt c cs).1 ≠ .ERROR := by
  unfold matchAt
  split_ifs with h1 h2 h3 h4 h5 h6 h7 h8 h9
  · rcases matchNumber_kind (c :: cs) with h | h <;> rw [h] <;> exact ⟨by decide, by decide⟩
  all_goals exact ⟨(fun h => nomatch h), (fun h => nomatch h)⟩

theorem matchAt_unknown_or_not (c : Char) (cs : List Char) :
    matchAt c cs = (.UNKNOWN, [c], cs) ∨ (matchAt c cs).1 ≠ .UNKNOWN := by
  unfold matchAt
  split_ifs with h1 h2 h3 h4 h5 h6 h7 h8 h9
  · rcases matchNumber_kind (c :: cs) with h | h <;> right <;> rw [h] <;> decide
  · exact .inr fun h => nomatch h
  · exact .inr fun h => nomatch h
  · exact .inr fun h => nomatch h
  · exact .inr fun h => nomatch h
  · exact .inr fun h => nomatch h
  · exact .inr fun h => nomatch h
  · exact .inr fun h => nomatch h
  · exact .inr fun h => nomatch h
  · exact .inl rfl

theorem matchAt_of_noRule (c : Char) (cs : List Char) (h : canEverMatch c = false) :
    matchAt c cs = (.UNKNOWN, [c], cs) := by
  unfold matchAt
  split_ifs with h1 h2 h3 h4 h5 h6 h7 h8 h9
  · exact absurd h (by simp [canEverMatch, h1])
  · exact absurd h (by simp [canEverMatch, h2])
  · have h0 := ((Bool.and_eq_true _ _).mp h3).1
    simp only [Bool.or_eq_true] at h0
    rcases h0 with ((hx | hx) | hx) | hx <;> exact absurd h (by simp [canEverMatch, hx])
  · simp only [Bool.or_eq_true] at h4
    rcases h4 with (((hx | hx) | hx) | hx) | hx <;>
      exact absurd h (by simp [canEverMatch, hx])
  · exact absurd h (by simp [canEverMatch, h5])
  · exact absurd h (by simp [canEverMatch, h6])
  · exact absurd h (by simp [canEverMatch, h7])
  · exact absurd h (by simp [canEverMatch, h8])
  · exact absurd h (by simp [canEverMatch, h9])
  · rfl

set_option maxHeartbeats 1000000 in
theorem matchAt_chars (c : Char) (cs : List Char) :
    (matchAt c cs).2.1 = [c] ∨ ∀ ch ∈ (matchAt c cs).2.1, canEverMatch ch = true := by
  unfold matchAt
  split_ifs with h1 h2 h3 h4 h5 h6 h7 h8 h9
  · right
    intro ch hch
    rcases matchNumber_chars (c :: cs) ch hch with h | h
    · simp [canEverMatch, h]
    · subst h; decide
  · right
    intro ch hch
    exact isIdCont_canEverMatch ch (List.mem_takeWhile_imp hch)
  · right
    intro ch hch
    have hc : (c == '=' || c == '!' || c == '<' || c == '>') = true :=
      ((Bool.and_eq_true _ _).mp h3).1
    rcases List.mem_cons.mp hch with rfl | hch2
    · simp only [Bool.or_eq_true] at hc
      rcases hc with ((hx | hx) | hx) | hx <;> simp [canEverMatch, hx]
    · rcases List.mem_cons.mp hch2 with rfl | hch3
      · decide
      · cases hch3
  · left; rfl
  · left; rfl
  · left; rfl
  · left; rfl
  · left; rfl
  · right
    intro ch hch
    simp [canEverMatch, List.mem_takeWhile_imp hch]
  · left; rfl

/-! ## Invariants of the tokenizer loop -/

theorem mem_left_of_append_eq {α : Type _} (r suf : List α) (c : α) :
    ∀ (mid m : List α), m ++ r = mid ++ c :: suf → mid.length < m.length → c ∈ m := by
  intro mid
  induction mid with
  | nil =>
    intro m hEq hlt
    cases m with
    | nil => simp at hlt
    | cons a m2 =>
      simp only [List.cons_append, List.nil_append] at hEq
      injection hEq with h1 _
      exact h1 ▸ List.mem_cons_self a m2
  | cons d mid2 ih =>
    intro m hEq hlt
    cases m with
    | nil => simp at hlt
    | cons a m2 =>
      simp only [List.cons_append, List.cons.injEq] at hEq
      have hlt2 : mid2.length < m2.length := by
        simp only [List.length_cons] at hlt
        omega
      exact List.mem_cons_of_mem a (ih m2 hEq.2 hlt2)

theorem prefix_split {α : Type _} (rest : List α) :
    ∀ (m mid r : List α), m ++ r = mid ++ rest → m.length ≤ mid.length →
      ∃ k, mid = m ++ k ∧ r = k ++ rest := by
  intro m
  induction m with
  | nil =>
    intro mid r hEq _
    exact ⟨mid, rfl, by simpa using hEq⟩
  | cons a m2 ih =>
    intro mid r hEq hle
    cases mid with
    | nil => simp at hle
    | cons d mid2 =>
      simp only [List.cons_append, List.cons.injEq] at hEq
      obtain ⟨h1, h2⟩ := hEq
      subst h1
      obtain ⟨k, hk1, hk2⟩ := ih mid2 r h2 (by simp only [List.length_cons] at hle; omega)
      exact ⟨k, by simp [hk1], hk2⟩

theorem tokenizeAux_mem_inv :
    ∀ (fuel : Nat) (l : List Char) (pos : Nat) (src : List Char), src.drop pos = l →
      ∀ t ∈ tokenizeAux fuel l pos,
        t.text ≠ [] ∧ (∃ r2, t.text ++ r2 = src.drop t.pos) ∧
        t.kind ≠ .SKIP ∧ t.kind ≠ .UNKNOWN ∧ pos ≤ t.pos ∧
        (t.kind = .ERROR → ∃ ch, t.text = [ch]) ∧
        ((t.kind = .KEYWORD ∨ t.kind = .ID) → (t.kind = .KEYWORD ↔ t.text ∈ KEYWORDS)) := by
  intro fuel
  induction fuel with
  | zero =>
    intro l pos src _ t ht
    simp [tokenizeAux] at ht
  | succ fuel ih =>
    intro l pos src hsrc t ht
    cases l with
    | nil => simp [tokenizeAux] at ht
    | cons c cs =>
      rcases hM : matchAt c cs with ⟨k, m, r⟩
      have hApp : m ++ r = c :: cs := by
        have h0 := matchAt_append c cs
        rw [hM] at h0
        exact h0
      have hShape : ∃ t0, m = c :: t0 := by
        have h0 := matchAt_shape c cs
        rw [hM] at h0
        exact h0
      have hKindN : k ≠ .KEYWORD ∧ k ≠ .ERROR := by
        have h0 := matchAt_kind_not c cs
        rw [hM] at h0
        exact h0
      have hdrop : src.drop (pos + m.length) = r := by
        calc src.drop (pos + m.length) = (src.drop pos).drop m.length := by
              rw [List.drop_drop]
          _ = (m ++ r).drop m.length := by rw [hsrc, hApp]
          _ = r := List.drop_left m r
      have htail := ih r (pos + m.length) src hdrop
      have htail2 : ∀ t2 ∈ tokenizeAux fuel r (pos + m.length),
          t2.text ≠ [] ∧ (∃ r2, t2.text ++ r2 = src.drop t2.pos) ∧
          t2.kind ≠ .SKIP ∧ t2.kind ≠ .UNKNOWN ∧ pos ≤ t2.pos ∧
          (t2.kind = .ERROR → ∃ ch, t2.text = [ch]) ∧
          ((t2.kind = .KEYWORD ∨ t2.kind = .ID) →
            (t2.kind = .KEYWORD ↔ t2.text ∈ KEYWORDS)) := by
        intro t2 ht2
        obtain ⟨a1, a2, a3, a4, a5, a6, a7⟩ := htail t2 ht2
        exact ⟨a1, a2, a3, a4, Nat.le_trans (Nat.le_add_right pos m.length) a5, a6, a7⟩
      have hTextNe : m ≠ [] := by
        obtain ⟨t0, ht0⟩ := hShape
        simp [ht0]
      have hPre : ∃ r2, m ++ r2 = src.drop pos := ⟨r, hApp.trans hsrc.symm⟩
      simp only [tokenizeAux, hM] at ht
      split_ifs at ht with hSkip hKw hUnk
      · exact htail2 t ht
      · rcases List.mem_cons.mp ht with rfl | hmem
        · exact ⟨hTextNe, hPre, (fun h => nomatch h), (fun h => nomatch h), Nat.le_refl _,
            (fun hE => nomatch hE), fun _ => ⟨fun _ => hKw.2, fun _ => rfl⟩⟩
        · exact htail2 t hmem
      · rcases List.mem_cons.mp ht with rfl | hmem
        · have hU : (k, m, r) = ((.UNKNOWN : TokKind), [c], cs) := by
            rcases matchAt_unknown_or_not c cs with h0 | h0
            · rw [hM] at h0
              exact h0
            · rw [hM] at h0
              exact absurd hUnk h0
          exact ⟨hTextNe, hPre, (fun h => nomatch h), (fun h => nomatch h), Nat.le_refl _,
            fun _ => ⟨c, by
              have := congrArg (fun p => p.2.1) hU
              simpa using this⟩,
            fun hx => by rcases hx with hx | hx <;> exact absurd hx (fun h => nomatch h)⟩
        · exact htail2 t hmem
      · rcases List.mem_cons.mp ht with rfl | hmem
        · refine ⟨hTextNe, hPre, hSkip, hUnk, Nat.le_refl _,
            fun hE => absurd hE hKindN.2, fun hx => ?_⟩
          rcases hx with hx | hx
          · exact absurd hx hKindN.1
          · constructor
            · intro hk
              rw [hx] at hk
              exact absurd hk (fun h => nomatch h)
            · intro hmem2
              exact absurd ⟨hx, hmem2⟩ hKw
        · exact htail2 t hmem

theorem tokenizeAux_pos_le :
    ∀ (fuel : Nat) (l : List Char) (pos : Nat) (t : Tok),
      t ∈ tokenizeAux fuel l pos → pos ≤ t.pos := by
  intro fuel
  induction fuel with
  | zero =>
    intro l pos t ht
    simp [tokenizeAux] at ht
  | succ fuel ih =>
    intro l pos t ht
    cases l with
    | nil => simp [tokenizeAux] at ht
    | cons c cs =>
      rcases hM : matchAt c cs with ⟨k, m, r⟩
      simp only [tokenizeAux, hM] at ht
      have htail : ∀ t2 ∈ tokenizeAux fuel r (pos + m.length), pos ≤ t2.pos :=
        fun t2 ht2 =>
          Nat.le_trans (Nat.le_add_right pos m.length) (ih r (pos + m.length) t2 ht2)
      split_ifs at ht with hSkip hKw hUnk
      · exact htail t ht
      · rcases List.mem_cons.mp ht with rfl | hmem
        · exact Nat.le_refl _
        · exact htail t hmem
      · rcases List.mem_cons.mp ht with rfl | hmem
        · exact Nat.le_refl _
        · exact htail t hmem
      · rcases List.mem_cons.mp ht with rfl | hmem
        · exact Nat.le_refl _
        · exact htail t hmem

theorem tokenizeAux_pairwise :
    ∀ (fuel : Nat) (l : List Char) (pos : Nat),
      (tokenizeAux fuel l pos).Pairwise (fun a b => a.pos < b.pos) := by
  intro fuel
  induction fuel with
  | zero =>
    intro l pos
    simp [tokenizeAux]
  | succ fuel ih =>
    intro l pos
    cases l with
    | nil => simp [tokenizeAux]
    | cons c cs =>
      rcases hM : matchAt c cs with ⟨k, m, r⟩
      have hShape : ∃ t0, m = c :: t0 := by
        have h0 := matchAt_shape c cs
        rw [hM] at h0
        exact h0
      have hlt : ∀ t2 ∈ tokenizeAux fuel r (pos + m.length), pos < t2.pos := by
        intro t2 ht2
        have h1 := tokenizeAux_pos_le fuel r (pos + m.length) t2 ht2
        obtain ⟨t0, ht0⟩ := hShape
        have h2 : 0 < m.length := by simp [ht0]
        omega
      simp only [tokenizeAux, hM]
      split_ifs with hSkip hKw hUnk
      · exact ih r (pos + m.length)
      · exact List.pairwise_cons.mpr ⟨fun b hb => hlt b hb, ih r (pos + m.length)⟩
      · exact List.pairwise_cons.mpr ⟨fun b hb => hlt b hb, ih r (pos + m.length)⟩
      · exact List.pairwise_cons.mpr ⟨fun b hb => hlt b hb, ih r (pos + m.length)⟩

theorem tokenizeAux_error_mem :
    ∀ (fuel : Nat) (l : List Char) (pos : Nat) (mid suf : List Char) (c : Char),
      l = mid ++ c :: suf → canEverMatch c = false → l.length ≤ fuel →
      (⟨.ERROR, [c], pos + mid.length⟩ : Tok) ∈ tokenizeAux fuel l pos := by
  intro fuel
  induction fuel with
  | zero =>
    intro l pos mid suf c hEq hc hlen
    subst hEq
    simp only [List.length_append, List.length_cons] at hlen
    omega
  | succ fuel ih =>
    intro l pos mid suf c hEq hc hlen
    cases mid with
    | nil =>
      have hl : l = c :: suf := by simpa using hEq
      subst hl
      have hM := matchAt_of_noRule c suf hc
      simp only [tokenizeAux, hM]
      simp
    | cons d mid2 =>
      have hl : l = d :: (mid2 ++ c :: suf) := by simpa using hEq
      subst hl
      rcases hM : matchAt d (mid2 ++ c :: suf) with ⟨k, m, r⟩
      have hApp : m ++ r = d :: (mid2 ++ c :: suf) := by
        have h0 := matchAt_append d (mid2 ++ c :: suf)
        rw [hM] at h0
        exact h0
      have hShape : ∃ t0, m = d :: t0 := by
        have h0 := matchAt_shape d (mid2 ++ c :: suf)
        rw [hM] at h0
        exact h0
      have hmlen : m.length ≤ mid2.length + 1 := by
        rcases matchAt_chars d (mid2 ++ c :: suf) with hOne | hAll
        · rw [hM] at hOne
          have hOne2 : m = [d] := by simpa using hOne
          rw [hOne2]
          simp
        · rw [hM] at hAll
          by_contra hgt
          push_neg at hgt
          have hEq2 : m ++ r = (d :: mid2) ++ c :: suf := by simpa using hApp
          have hcm : c ∈ m :=
            mem_left_of_append_eq r suf c (d :: mid2) m hEq2
              (by simp only [List.length_cons]; omega)
          have hcT := hAll c hcm
          rw [hc] at hcT
          exact absurd hcT (by decide)
      obtain ⟨mid3, hmid3, hr3⟩ :=
        prefix_split (c :: suf) m (d :: mid2) r (by simpa using hApp)
          (by simp only [List.length_cons]; omega)
      have hlen2 : r.length ≤ fuel := by
        have h1 : m.length + r.length = (d :: (mid2 ++ c :: suf)).length := by
          rw [← List.length_append, hApp]
        obtain ⟨t0, ht0⟩ := hShape
        simp only [List.length_cons, List.length_append, ht0] at h1 hlen
        omega
      have hrec := ih r (pos + m.length) mid3 suf c hr3 hc hlen2
      have hposArith : pos + m.length + mid3.length = pos + (d :: mid2).length := by
        have h2 : (d :: mid2).length = m.length + mid3.length := by
          rw [hmid3, List.length_append]
        omega
      rw [← hposArith]
      simp only [tokenizeAux, hM]
      split_ifs with hSkip hKw hUnk
      · exact hrec
      · exact List.mem_cons_of_mem _ hrec
      · exact List.mem_cons_of_mem _ hrec
      · exact List.mem_cons_of_mem _ hrec

theorem filter_pos_single :
    ∀ (l : List Tok) (t : Tok), t ∈ l → l.Pairwise (fun a b => a.pos < b.pos) →
      l.filter (fun x => x.pos == t.pos) = [t] := by
  intro l
  induction l with
  | nil =>
    intro t ht _
    exact absurd ht (List.not_mem_nil t)
  | cons a as ih =>
    intro t ht hp
    rw [List.pairwise_cons] at hp
    rcases List.mem_cons.mp ht with rfl | hmem
    · rw [List.filter_cons, if_pos (by simp)]
      have hnil : as.filter (fun x => x.pos == t.pos) = [] := by
        rw [List.filter_eq_nil_iff]
        intro b hb
        have hlt := hp.1 b hb
        simp only [beq_iff_eq]
        omega
      rw [hnil]
    · have hlt := hp.1 t hmem
      rw [List.filter_cons, if_neg (by simp only [beq_iff_eq]; omega)]
      exact ih t hmem hp.2

/-! ## Character-class lemmas -/

theorem isIdStart_first_ok (c : Char) (h : isIdStart c = true) :
    (pyIsAlpha c || c == '_') = true := by
  simp only [isIdStart, Bool.or_eq_true] at h
  rcases h with h | h
  · simp [pyIsAlpha, h]
  · simp [h]

theorem isIdCont_rest_ok (c : Char) (h : isIdCont c = true) :
    (pyIsAlnum c || c == '_') = true := by
  simp only [isIdCont, Bool.or_eq_true] at h
  rcases h with (h | h) | h
  · simp [pyIsAlnum, pyIsAlpha, h]
  · simp [pyIsAlnum, h]
  · simp [h]

theorem isAsciiDigit_rejected_first (c : Char) (h : isAsciiDigit c = true) :
    (pyIsAlpha c || c == '_') = false := by
  have hn : 48 ≤ c.toNat ∧ c.toNat ≤ 57 := by
    simpa [isAsciiDigit, Bool.and_eq_true, decide_eq_true_eq] using h
  have hu : c ≠ '_' := by
    intro hEq
    subst hEq
    exact absurd hn (by decide)
  rw [Bool.or_eq_false_iff]
  refine ⟨?_, by simpa using hu⟩
  rw [Bool.eq_false_iff]
  intro hT
  simp only [pyIsAlpha, isAsciiLetter, Bool.or_eq_true, Bool.and_eq_true,
    Bool.not_eq_true', beq_eq_false_iff_ne, ne_eq, beq_iff_eq,
    decide_eq_true_eq] at hT
  omega

/-! ## C1 -/

/-- C1: every string matching `[A-Za-z_][A-Za-z0-9_]*` is accepted by
`afd_identificador`; the empty string is rejected, and every string whose
first character is a digit is rejected. -/
theorem afd_identificador_spec :
    (∀ s : List Char, matchesIdPattern s = true → afd_identificador s = true)
    ∧ afd_identificador [] = false
    ∧ ∀ (c : Char) (s : List Char), isAsciiDigit c = true →
        afd_identificador (c :: s) = false := by
  refine ⟨?_, rfl, ?_⟩
  · intro s h
    match s with
    | c :: cs =>
      simp only [matchesIdPattern, Bool.and_eq_true] at h
      simp only [afd_identificador, isIdStart_first_ok c h.1, Bool.not_true,
        Bool.false_eq_true, if_false]
      rw [List.all_eq_true] at h ⊢
      exact fun ch hch => isIdCont_rest_ok ch (h.2 ch hch)
  · intro c s h
    simp [afd_identificador, isAsciiDigit_rejected_first c h]

/-- Witness for C1 at concrete inputs. -/
theorem afd_identificador_spec_witness :
    afd_identificador "_ab9".data = true ∧ afd_identificador ('9' :: "ab".data) = false :=
  ⟨afd_identificador_spec.1 "_ab9".data (by decide),
    afd_identificador_spec.2.2 '9' "ab".data (by decide)⟩

/-! ## C10 -/

/-- C10: the identifier acceptor's alphabet is strictly larger than the
tokenizer's ASCII-only `ID` rule: there is a single-character string
(the Unicode letter `é`) accepted by `afd_identificador` on which
`tokenize` produces an `ERROR` token for that same character. -/
theorem afd_vs_tokenizer_alphabet_spec :
    ∃ c : Char, afd_identificador [c] = true ∧
      tokenize [c] = [⟨.ERROR, [c], 0⟩] :=
  ⟨'é', by decide, by decide⟩

/-! ## C2, C3: precedence and associativity -/

/-- C2: `*` and `/` bind tighter than `+` and `-`: on the token stream of
`1+2*3` (for arbitrary numeral texts) the parser returns
`BinOp(+, Number, BinOp(*, Number, Number))`, and
`parse_expression "1+2*3"` returns exactly that AST. -/
theorem parse_precedence_spec :
    (∀ n1 n2 n3 : String,
      run (parseFuel 5) .Em
          ⟨[("NUMBER", n1), ("+", "+"), ("NUMBER", n2), ("*", "*"), ("NUMBER", n3)], 0⟩ =
        .ok (.BinOp "+" (.Number n1) (.BinOp "*" (.Number n2) (.Number n3)),
          ⟨[("NUMBER", n1), ("+", "+"), ("NUMBER", n2), ("*", "*"), ("NUMBER", n3)], 5⟩))
    ∧ parse_expression "1+2*3".data =
        .ok (.BinOp "+" (.Number "1") (.BinOp "*" (.Number "2") (.Number "3"))) :=
  ⟨fun _ _ _ => rfl, rfl⟩

/-- C3: repeated same-precedence operators fold left-associatively: on the
token stream of `a - b - c` (for arbitrary identifier texts) the parser
returns `BinOp(-, BinOp(-, Identifier, Identifier), Identifier)`, and
`parse_expression "a - b - c"` returns exactly that AST. -/
theorem parse_left_assoc_spec :
    (∀ ta tb tc : String,
      run (parseFuel 5) .Em
          ⟨[("ID", ta), ("-", "-"), ("ID", tb), ("-", "-"), ("ID", tc)], 0⟩ =
        .ok (.BinOp "-" (.BinOp "-" (.Identifier ta) (.Identifier tb)) (.Identifier tc),
          ⟨[("ID", ta), ("-", "-"), ("ID", tb), ("-", "-"), ("ID", tc)], 5⟩))
    ∧ parse_expression "a - b - c".data =
        .ok (.BinOp "-" (.BinOp "-" (.Identifier "a") (.Identifier "b")) (.Identifier "c")) :=
  ⟨fun _ _ _ => rfl, rfl⟩

/-! ## C4: trailing input is rejected -/

/-- C4: for every input text, if the top-level `E` succeeds but the next
token is not the `EOF` sentinel, `parse_expression` raises the
`Entrada extra após expressão` syntax error; in particular `1 2` fails. -/
theorem parse_trailing_input_spec :
    (∀ (text : List Char) (ast : AST) (lex2 : ExprLexer),
      run (parseFuel (exprScan text).length) .Em ⟨exprScan text, 0⟩ = .ok (ast, lex2) →
      (lex2.peek).1 ≠ "EOF" →
      parse_expression text = .error "Entrada extra após expressão")
    ∧ parse_expression ("1 2".data) = .error "Entrada extra após expressão" := by
  constructor
  · intro text ast lex2 h hne
    unfold parse_expression
    rw [h]
    show (if (lex2.peek).1 = "EOF" then Except.ok ast
        else Except.error "Entrada extra após expressão") =
      Except.error "Entrada extra após expressão"
    rw [if_neg hne]
  · rfl

/-- Witness for C4: the parse of `1 2` stops after `Number 1` with the
second `NUMBER` token pending, hence errors. -/
theorem parse_trailing_input_spec_witness :
    parse_expression ("1 2".data) = .error "Entrada extra após expressão" :=
  parse_trailing_input_spec.1 "1 2".data (.Number "1")
    ⟨[("NUMBER", "1"), ("NUMBER", "2")], 1⟩ rfl (by decide)

/-! ## C5: failure of `F` aborts the parse -/

/-- C5: whenever the current token at a `F` (Factor) position is none of
`NUMBER`, `ID`, `(`, the parser raises a `SyntaxError` (no AST is
produced); in particular `parse_expression "1+"` fails with
`Token inesperado em F`. -/
theorem parse_factor_error_spec :
    (∀ (fuel : Nat) (lex : ExprLexer),
      (lex.peek).1 ≠ "NUMBER" → (lex.peek).1 ≠ "ID" → (lex.peek).1 ≠ "(" →
      ∃ e, run (fuel + 1) .Fm lex = .error e)
    ∧ parse_expression "1+".data = .error "Token inesperado em F: (EOF, )" := by
  constructor
  · intro fuel lex h1 h2 h3
    exact ⟨"Token inesperado em F: (" ++ (lex.peek).1 ++ ", " ++ (lex.peek).2 ++ ")",
      by rw [run, if_neg h1, if_neg h2, if_neg h3]⟩
  · rfl

/-- Witness for C5 at a concrete lexer state (empty token list, so the
`F` position sees the `EOF` sentinel). -/
theorem parse_factor_error_spec_witness :
    ∃ e, run 1 .Fm ⟨[], 0⟩ = .error e :=
  parse_factor_error_spec.1 0 ⟨[], 0⟩ (by decide) (by decide) (by decide)

/-! ## C9: the lexer cursor at and past end-of-input -/

/-- C9: on an `ExprLexer` whose cursor is at or past the end of its token
list, `peek` returns the `("EOF", "")` sentinel, and after any number of
further `next` calls both `peek` and the token returned by `next` are
still the sentinel — reading past the end never fails. -/
theorem exprlexer_eof_spec :
    ∀ lex : ExprLexer, lex.tokens.length ≤ lex.pos →
      lex.peek = ("EOF", "") ∧
      ∀ k : Nat, (lex.nextIter k).peek = ("EOF", "") ∧
        ((lex.nextIter k).next).1 = ("EOF", "") := by
  have hpeek : ∀ m : ExprLexer, m.tokens.length ≤ m.pos → m.peek = ("EOF", "") :=
    fun m hm => List.getD_eq_default _ _ hm
  intro lex h
  have hstate : ∀ k : Nat, (lex.nextIter k).tokens = lex.tokens ∧
      lex.pos ≤ (lex.nextIter k).pos := by
    intro k
    induction k with
    | zero => exact ⟨rfl, Nat.le_refl _⟩
    | succ k ih =>
      refine ⟨ih.1, ?_⟩
      exact Nat.le_trans ih.2 (Nat.le_succ _)
  refine ⟨hpeek lex h, fun k => ?_⟩
  have hk : (lex.nextIter k).tokens.length ≤ (lex.nextIter k).pos := by
    rw [(hstate k).1]
    exact Nat.le_trans h (hstate k).2
  exact ⟨hpeek _ hk, hpeek _ hk⟩

/-- Witness for C9: a lexer holding one token with the cursor already past
it. -/
theorem exprlexer_eof_spec_witness :
    (ExprLexer.mk [("NUMBER", "1")] 1).peek = ("EOF", "") ∧
      ((ExprLexer.mk [("NUMBER", "1")] 1).nextIter 3).peek = ("EOF", "") :=
  ⟨(exprlexer_eof_spec ⟨[("NUMBER", "1")], 1⟩ (by decide)).1,
    ((exprlexer_eof_spec ⟨[("NUMBER", "1")], 1⟩ (by decide)).2 3).1⟩

/-! ## C6: error-tolerant scanning -/

/-- C6: `tokenize` is total (it is a Lean function, so it never raises);
a character matched by no classification rule yields exactly one
single-character `ERROR` token at that character's offset while scanning
continues (the rest of the sequence is still produced); every `ERROR`
token carries a single character; and `tokenize "@"` is a single `ERROR`
token with text `"@"`. -/
theorem tokenize_error_tolerant_spec :
    (∀ (pre suf : List Char) (c : Char), canEverMatch c = false →
      (tokenize (pre ++ c :: suf)).filter (fun t => t.pos == pre.length) =
        [⟨.ERROR, [c], pre.length⟩])
    ∧ (∀ (src : List Char) (t : Tok), t ∈ tokenize src → t.kind = .ERROR →
        ∃ ch, t.text = [ch])
    ∧ tokenize "@".data = [⟨.ERROR, ['@'], 0⟩] := by
  refine ⟨?_, ?_, by decide⟩
  · intro pre suf c hc
    have hmem : (⟨.ERROR, [c], 0 + pre.length⟩ : Tok) ∈ tokenize (pre ++ c :: suf) :=
      tokenizeAux_error_mem (pre ++ c :: suf).length (pre ++ c :: suf) 0 pre suf c rfl
        hc (Nat.le_refl _)
    have hpw := tokenizeAux_pairwise (pre ++ c :: suf).length (pre ++ c :: suf) 0
    have h0 := filter_pos_single _ _ hmem hpw
    simpa using h0
  · intro src t ht hE
    exact (tokenizeAux_mem_inv src.length src 0 src (by simp) t ht).2.2.2.2.2.1 hE

/-- Witness for C6: the bad character `@` preceded and followed by good
input yields exactly one `ERROR` token at its offset. -/
theorem tokenize_error_tolerant_spec_witness :
    (tokenize ("ab".data ++ '@' :: "cd".data)).filter (fun t => t.pos == 2) =
      [⟨.ERROR, ['@'], 2⟩] :=
  tokenize_error_tolerant_spec.1 "ab".data "cd".data '@' (by decide)

/-! ## C7: keyword reclassification -/

/-- C7: among the tokens `tokenize` emits, an identifier-class token has
kind `KEYWORD` exactly when its text is one of the reserved words, and
otherwise keeps kind `ID`; in particular `tokenize "if x"` yields kinds
`[KEYWORD, ID]`. -/
theorem tokenize_keyword_spec :
    (∀ (src : List Char) (t : Tok), t ∈ tokenize src →
      (t.kind = .KEYWORD ∨ t.kind = .ID) → (t.kind = .KEYWORD ↔ t.text ∈ KEYWORDS))
    ∧ (tokenize "if x".data).map Tok.kind = [.KEYWORD, .ID] := by
  refine ⟨?_, by decide⟩
  intro src t ht hx
  exact (tokenizeAux_mem_inv src.length src 0 src (by simp) t ht).2.2.2.2.2.2 hx

/-- Witness for C7: the `if` token of `tokenize "if x"`. -/
theorem tokenize_keyword_spec_witness :
    (TokKind.KEYWORD = TokKind.KEYWORD ↔ "if".data ∈ KEYWORDS) :=
  tokenize_keyword_spec.1 "if x".data ⟨.KEYWORD, "if".data, 0⟩ (by decide) (.inl rfl)

/-! ## C8: stream invariants -/

/-- C8: every token of `tokenize` has non-empty text that is the
contiguous substring of the source at its offset, no whitespace (`SKIP`)
token is emitted, offsets are non-decreasing across the sequence; and
`tokenize "x1 = 3.14;"` is `[ID "x1", OP "=", FLOAT "3.14", SEMI ";"]`
at strictly increasing offsets 0, 3, 5, 9. -/
theorem tokenize_invariants_spec :
    (∀ (src : List Char) (t : Tok), t ∈ tokenize src →
      t.text ≠ [] ∧ (∃ r, t.text ++ r = src.drop t.pos) ∧ t.kind ≠ .SKIP)
    ∧ (∀ src : List Char, (tokenize src).Pairwise fun a b => a.pos ≤ b.pos)
    ∧ tokenize "x1 = 3.14;".data =
        [⟨.ID, "x1".data, 0⟩, ⟨.OP, "=".data, 3⟩, ⟨.FLOAT, "3.14".data, 5⟩,
          ⟨.SEMI, ";".data, 9⟩]
    ∧ (tokenize "x1 = 3.14;".data).Chain' (fun a b => a.pos < b.pos) := by
  have hlist : tokenize "x1 = 3.14;".data =
      [⟨.ID, "x1".data, 0⟩, ⟨.OP, "=".data, 3⟩, ⟨.FLOAT, "3.14".data, 5⟩,
        ⟨.SEMI, ";".data, 9⟩] := by decide
  refine ⟨?_, ?_, hlist, ?_⟩
  · intro src t ht
    obtain ⟨a1, a2, a3, _⟩ := tokenizeAux_mem_inv src.length src 0 src (by simp) t ht
    exact ⟨a1, a2, a3⟩
  · intro src
    exact (tokenizeAux_pairwise src.length src 0).imp (fun h => Nat.le_of_lt h)
  · rw [hlist]
    exact List.chain'_cons.mpr ⟨by decide, List.chain'_cons.mpr ⟨by decide,
      List.chain'_cons.mpr ⟨by decide, List.chain'_singleton _⟩⟩⟩

/-- Witness for C8: the `x1` token of `tokenize "x1"`. -/
theorem tokenize_invariants_spec_witness :
    ("x1".data ≠ []) ∧ (∃ r, "x1".data ++ r = "x1".data.drop 0) ∧
      TokKind.ID ≠ TokKind.SKIP :=
  tokenize_invariants_spec.1 "x1".data ⟨.ID, "x1".data, 0⟩ (by decide)

end MeuCompilador
